import Mathlib

/-!
# Queues of `src/main.cpp`

A shallow embedding of the two queues of the benchmark program:

* `MutexQueue`: a `std::queue<int>` behind a mutex;
* `LockFreeQueue`: the single-producer/single-consumer ring over a
  `std::vector<int>` of `SIZE` slots with the two cursors `head` and `tail`.

The embedding is sequential: one call runs to completion before the next one
starts, so the mutex and the memory orders of the atomic loads and stores do not
appear.  An `int` is an `Int` (the queues only store and copy elements), a
`size_t` is a `Nat` whose arithmetic wraps modulo `SIZE_T_RANGE`.
-/

namespace LowLatencyQueue

/-! ## Data model -/

/-- The constant `static const size_t SIZE = 1024 * 1024;`. -/
def SIZE : Nat := 1024 * 1024

/-- Number of values of the type `size_t` (64 bits): `t + 1` on a `size_t` is
`(t + 1) % SIZE_T_RANGE`. -/
def SIZE_T_RANGE : Nat := 2 ^ 64

/-- The class `MutexQueue`: the field `q` is the `std::queue<int>`, front first.
The mutex `m` only serialises calls and has no sequential content. -/
structure MutexQueue where
  q : List Int
deriving DecidableEq

/-- The class `LockFreeQueue`: `buffer` is the `std::vector<int>`, `head` and
`tail` are the values held by the two `std::atomic<size_t>` cursors. -/
structure LockFreeQueue where
  buffer : List Int
  head : Nat
  tail : Nat
deriving DecidableEq

/-! ## `MutexQueue` -/

/-- A default-constructed `MutexQueue`: the sequence is empty. -/
def MutexQueue.new : MutexQueue :=
  { q := [] }

/-- The method `void MutexQueue::push(int value)`: `q.push(value)`. -/
def MutexQueue.push (self : MutexQueue) (value : Int) : MutexQueue :=
  { q := self.q ++ [value] }

/-- The method `bool MutexQueue::pop(int &value)`.  The argument `value` is what
the caller's variable holds at the call; the result is the returned flag, what
the variable holds afterwards, and the queue afterwards. -/
def MutexQueue.pop (self : MutexQueue) (value : Int) : Bool × Int × MutexQueue :=
  match self.q with
  | [] => (false, value, self)
  | front :: rest => (true, front, { q := rest })

/-! ## `LockFreeQueue` -/

/-- The constructor `LockFreeQueue() : buffer(SIZE), head(0), tail(0)`: `SIZE`
value-initialised (zero) slots and both cursors at `0`. -/
def LockFreeQueue.new : LockFreeQueue :=
  { buffer := List.replicate SIZE 0, head := 0, tail := 0 }

/-- The method `bool LockFreeQueue::push(int value)`: the returned flag and the
queue afterwards.  `buffer[t] = value` is `List.set`, which writes nothing when
`t` is not an index of the buffer. -/
def LockFreeQueue.push (self : LockFreeQueue) (value : Int) : Bool × LockFreeQueue :=
  let t := self.tail
  let next := ((t + 1) % SIZE_T_RANGE) % SIZE
  if next = self.head then
    (false, self)
  else
    (true, { buffer := self.buffer.set t value, head := self.head, tail := next })

/-- The method `bool LockFreeQueue::pop(int &value)`.  The argument `value` is
what the caller's variable holds at the call; the result is the returned flag,
what the variable holds afterwards, and the queue afterwards.  `buffer[h]` is
`List.getD` (`0` when `h` is not an index of the buffer). -/
def LockFreeQueue.pop (self : LockFreeQueue) (value : Int) : Bool × Int × LockFreeQueue :=
  let h := self.head
  if h = self.tail then
    (false, value, self)
  else
    (true, self.buffer.getD h 0,
      { buffer := self.buffer, head := ((h + 1) % SIZE_T_RANGE) % SIZE, tail := self.tail })

/-! ## Sequences of calls -/

/-- One call made on a queue by its user: `push(v)` or `pop(value)`. -/
inductive Op where
  | push (v : Int)
  | pop
deriving DecidableEq

/-- A ring queue together with the record of a run on it: the caller's variable
`value` passed to every `pop`, the flag returned by every call, the values whose
`push` returned `true` and the values delivered by the `pop`s that returned
`true`, all oldest first. -/
structure RingRun where
  queue : LockFreeQueue
  value : Int
  flags : List Bool
  pushed : List Int
  popped : List Int

/-- The start of a run: a freshly constructed ring, nothing pushed or popped;
`value0` is what the caller's (uninitialised) variable happens to hold. -/
def RingRun.start (value0 : Int) : RingRun :=
  { queue := LockFreeQueue.new, value := value0, flags := [], pushed := [], popped := [] }

/-- One call on the ring, recorded. -/
def RingRun.step (r : RingRun) : Op → RingRun
  | Op.push v =>
    { queue := (r.queue.push v).2
      value := r.value
      flags := r.flags ++ [(r.queue.push v).1]
      pushed := if (r.queue.push v).1 then r.pushed ++ [v] else r.pushed
      popped := r.popped }
  | Op.pop =>
    { queue := (r.queue.pop r.value).2.2
      value := (r.queue.pop r.value).2.1
      flags := r.flags ++ [(r.queue.pop r.value).1]
      pushed := r.pushed
      popped := if (r.queue.pop r.value).1 then r.popped ++ [(r.queue.pop r.value).2.1]
                else r.popped }

/-- The calls of `ops` made one at a time, first to last. -/
def RingRun.run (r : RingRun) (ops : List Op) : RingRun :=
  ops.foldl RingRun.step r

/-- The run of `ops` on a freshly constructed `LockFreeQueue`. -/
def ringRun (value0 : Int) (ops : List Op) : RingRun :=
  (RingRun.start value0).run ops

/-- A mutex queue together with the record of a run on it: the caller's
variable `value` passed to every `pop`, the flag returned by every `pop` (a
`push` returns nothing), the values pushed and the values delivered by the
`pop`s that returned `true`, all oldest first. -/
structure MutexRun where
  queue : MutexQueue
  value : Int
  flags : List Bool
  pushed : List Int
  popped : List Int

/-- The start of a run: a fresh `MutexQueue`, nothing pushed or popped. -/
def MutexRun.start (value0 : Int) : MutexRun :=
  { queue := MutexQueue.new, value := value0, flags := [], pushed := [], popped := [] }

/-- One call on the mutex queue, recorded. -/
def MutexRun.step (r : MutexRun) : Op → MutexRun
  | Op.push v =>
    { queue := r.queue.push v
      value := r.value
      flags := r.flags
      pushed := r.pushed ++ [v]
      popped := r.popped }
  | Op.pop =>
    { queue := (r.queue.pop r.value).2.2
      value := (r.queue.pop r.value).2.1
      flags := r.flags ++ [(r.queue.pop r.value).1]
      pushed := r.pushed
      popped := if (r.queue.pop r.value).1 then r.popped ++ [(r.queue.pop r.value).2.1]
                else r.popped }

/-- The calls of `ops` made one at a time, first to last. -/
def MutexRun.run (r : MutexRun) (ops : List Op) : MutexRun :=
  ops.foldl MutexRun.step r

/-- The run of `ops` on a fresh `MutexQueue`. -/
def mutexRun (value0 : Int) (ops : List Op) : MutexRun :=
  (MutexRun.start value0).run ops

/-- Number of live elements of the ring: `(tail - head) mod SIZE`. -/
def LockFreeQueue.live (self : LockFreeQueue) : Nat :=
  (((self.tail : Int) - (self.head : Int)) % (SIZE : Int)).toNat

/-- The list the ring represents: `buffer[head]`, `buffer[(head + 1) % SIZE]`,
..., up to `buffer[(tail - 1) % SIZE]`. -/
def LockFreeQueue.toList (self : LockFreeQueue) : List Int :=
  (List.range self.live).map fun i => self.buffer.getD ((self.head + i) % SIZE) 0

/-- Well-formed ring state: both cursors are indices of the `SIZE`-slot buffer. -/
def LockFreeQueue.WF (self : LockFreeQueue) : Prop :=
  self.buffer.length = SIZE ∧ self.head < SIZE ∧ self.tail < SIZE

/-- What every run keeps true: the ring is well formed and the values pushed are
the values popped followed by the represented list. -/
def RingRun.Good (r : RingRun) : Prop :=
  r.queue.WF ∧ r.pushed = r.popped ++ r.queue.toList

/-- The two runs agree: the ring is well formed, the list it represents is the
sequence of the mutex queue, and the caller's variable and the records of pushed
and popped values are the same on both sides. -/
def Sim (r : RingRun) (m : MutexRun) : Prop :=
  r.queue.WF ∧ r.queue.toList = m.queue.q ∧ r.value = m.value
    ∧ r.pushed = m.pushed ∧ r.popped = m.popped

/-! ## The benchmark's producer and consumer on the ring -/

/-- The inner loop `while (!q.push(i)) { }` of `producer_lockfree`: `push(i)` is
called until it returns `true`.  `fuel` bounds the number of calls; the result
is the number of times the (empty) loop body was entered, that is the number of
calls that returned `false`, and the queue afterwards, or `none` when the fuel
runs out before a call returns `true`. -/
def producer_lockfree_spin : Nat → LockFreeQueue → Int → Option (Nat × LockFreeQueue)
  | 0, _, _ => none
  | fuel + 1, q, i =>
    if (q.push i).1 then
      some (0, (q.push i).2)
    else
      (producer_lockfree_spin fuel (q.push i).2 i).map fun r => (r.1 + 1, r.2)

/-- The function `void producer_lockfree(LockFreeQueue &q, int count)`, run with
no other thread: for `i = 0, 1, ..., count - 1` (no iteration when `count ≤ 0`)
the spin loop on `q.push(i)`, each with `fuel` calls at most.  The result is the
total number of entries into a spin loop body and the queue afterwards. -/
def producer_lockfree (fuel : Nat) (q : LockFreeQueue) (count : Int) :
    Option (Nat × LockFreeQueue) :=
  (List.range count.toNat).foldlM
    (fun (acc : Nat × LockFreeQueue) (i : Nat) =>
      (producer_lockfree_spin fuel acc.2 (i : Int)).map fun r => (acc.1 + r.1, r.2))
    (0, q)

/-- The loop `while (consumed < count) { if (q.pop(value)) consumed++; }` of
`consumer_lockfree`, from the state (`q`, `value`, `consumed`).  `fuel` bounds
the number of calls of `pop`; `calls` records, for every call made so far, the
flag it returned and what `value` held after it.  The result is that record, the
final `value` and the queue, or `none` when the fuel runs out first. -/
def consumer_lockfree_loop (count : Int) :
    Nat → LockFreeQueue → Int → Int → List (Bool × Int) →
      Option (List (Bool × Int) × Int × LockFreeQueue)
  | 0, q, value, consumed, calls =>
    if consumed < count then none else some (calls, value, q)
  | fuel + 1, q, value, consumed, calls =>
    if consumed < count then
      consumer_lockfree_loop count fuel (q.pop value).2.2 (q.pop value).2.1
        (if (q.pop value).1 then consumed + 1 else consumed)
        (calls ++ [((q.pop value).1, (q.pop value).2.1)])
    else
      some (calls, value, q)

/-- The function `void consumer_lockfree(LockFreeQueue &q, int count)`, run with
no other thread: `int value;` holds `value0`, `consumed` starts at `0`. -/
def consumer_lockfree (fuel : Nat) (q : LockFreeQueue) (count : Int) (value0 : Int) :
    Option (List (Bool × Int) × Int × LockFreeQueue) :=
  consumer_lockfree_loop count fuel q value0 0 []

/-! ## `push` and `pop` statement by statement

The bodies of `LockFreeQueue::push` and `LockFreeQueue::pop` as machines that
execute one statement of the source per step, so that the number of steps of a
call can be counted.  A step is `none` where the statement has undefined
behaviour (a slot index outside the buffer). -/

/-- The program points of `LockFreeQueue::push`, one per statement, and the
point `halted result` reached by a `return`. -/
inductive PushPc where
  | loadTail
  | computeNext
  | testFull
  | returnFalse
  | storeSlot
  | storeTail
  | returnTrue
  | halted (result : Bool)
deriving DecidableEq

/-- Position of a program point of `push` in the text of the function. -/
def PushPc.rank : PushPc → Nat
  | PushPc.loadTail => 0
  | PushPc.computeNext => 1
  | PushPc.testFull => 2
  | PushPc.returnFalse => 3
  | PushPc.storeSlot => 4
  | PushPc.storeTail => 5
  | PushPc.returnTrue => 6
  | PushPc.halted _ => 7

/-- A configuration of a call of `push`: the program point, the locals `t` and
`next`, and the queue. -/
structure PushCfg where
  pc : PushPc
  t : Nat
  next : Nat
  queue : LockFreeQueue

/-- The configuration at the entry of `push` on the queue `q`; the locals are
not yet assigned. -/
def PushCfg.entry (q : LockFreeQueue) : PushCfg :=
  { pc := PushPc.loadTail, t := 0, next := 0, queue := q }

/-- One statement of `push(value)`:
`size_t t = tail.load(...)`; `size_t next = (t + 1) % SIZE`;
`if (next == head.load(...))`; `return false`; `buffer[t] = value`;
`tail.store(next, ...)`; `return true`.  A halted configuration stays as it is. -/
def PushCfg.step (value : Int) (c : PushCfg) : Option PushCfg :=
  match c.pc with
  | PushPc.loadTail =>
    some { pc := PushPc.computeNext, t := c.queue.tail, next := c.next, queue := c.queue }
  | PushPc.computeNext =>
    some { pc := PushPc.testFull, t := c.t, next := ((c.t + 1) % SIZE_T_RANGE) % SIZE,
           queue := c.queue }
  | PushPc.testFull =>
    if c.next = c.queue.head then
      some { pc := PushPc.returnFalse, t := c.t, next := c.next, queue := c.queue }
    else
      some { pc := PushPc.storeSlot, t := c.t, next := c.next, queue := c.queue }
  | PushPc.returnFalse =>
    some { pc := PushPc.halted false, t := c.t, next := c.next, queue := c.queue }
  | PushPc.storeSlot =>
    if c.t < c.queue.buffer.length then
      some { pc := PushPc.storeTail, t := c.t, next := c.next,
             queue := { buffer := c.queue.buffer.set c.t value, head := c.queue.head,
                        tail := c.queue.tail } }
    else
      none
  | PushPc.storeTail =>
    some { pc := PushPc.returnTrue, t := c.t, next := c.next,
           queue := { buffer := c.queue.buffer, head := c.queue.head, tail := c.next } }
  | PushPc.returnTrue =>
    some { pc := PushPc.halted true, t := c.t, next := c.next, queue := c.queue }
  | PushPc.halted _ => some c

/-- The first `n` steps of a call of `push(value)` from the configuration `c`. -/
def PushCfg.exec (value : Int) : Nat → PushCfg → Option PushCfg
  | 0, c => some c
  | n + 1, c => (c.step value).bind (PushCfg.exec value n)

/-- The program points of `LockFreeQueue::pop`, one per statement, and the
point `halted result` reached by a `return`. -/
inductive PopPc where
  | loadHead
  | testEmpty
  | returnFalse
  | loadSlot
  | storeHead
  | returnTrue
  | halted (result : Bool)
deriving DecidableEq

/-- Position of a program point of `pop` in the text of the function. -/
def PopPc.rank : PopPc → Nat
  | PopPc.loadHead => 0
  | PopPc.testEmpty => 1
  | PopPc.returnFalse => 2
  | PopPc.loadSlot => 3
  | PopPc.storeHead => 4
  | PopPc.returnTrue => 5
  | PopPc.halted _ => 6

/-- A configuration of a call of `pop`: the program point, the local `h`, the
caller's variable `value`, and the queue. -/
structure PopCfg where
  pc : PopPc
  h : Nat
  value : Int
  queue : LockFreeQueue

/-- The configuration at the entry of `pop(value)` on the queue `q`; the local
`h` is not yet assigned. -/
def PopCfg.entry (q : LockFreeQueue) (value : Int) : PopCfg :=
  { pc := PopPc.loadHead, h := 0, value := value, queue := q }

/-- One statement of `pop(value)`:
`size_t h = head.load(...)`; `if (h == tail.load(...))`; `return false`;
`value = buffer[h]`; `head.store((h + 1) % SIZE, ...)`; `return true`.
A halted configuration stays as it is. -/
def PopCfg.step (c : PopCfg) : Option PopCfg :=
  match c.pc with
  | PopPc.loadHead =>
    some { pc := PopPc.testEmpty, h := c.queue.head, value := c.value, queue := c.queue }
  | PopPc.testEmpty =>
    if c.h = c.queue.tail then
      some { pc := PopPc.returnFalse, h := c.h, value := c.value, queue := c.queue }
    else
      some { pc := PopPc.loadSlot, h := c.h, value := c.value, queue := c.queue }
  | PopPc.returnFalse =>
    some { pc := PopPc.halted false, h := c.h, value := c.value, queue := c.queue }
  | PopPc.loadSlot =>
    match c.queue.buffer[c.h]? with
    | some x => some { pc := PopPc.storeHead, h := c.h, value := x, queue := c.queue }
    | none => none
  | PopPc.storeHead =>
    some { pc := PopPc.returnTrue, h := c.h, value := c.value,
           queue := { buffer := c.queue.buffer, head := ((c.h + 1) % SIZE_T_RANGE) % SIZE,
                      tail := c.queue.tail } }
  | PopPc.returnTrue =>
    some { pc := PopPc.halted true, h := c.h, value := c.value, queue := c.queue }
  | PopPc.halted _ => some c

/-- The first `n` steps of a call of `pop` from the configuration `c`. -/
def PopCfg.exec : Nat → PopCfg → Option PopCfg
  | 0, c => some c
  | n + 1, c => c.step.bind (PopCfg.exec n)

/-! ## Basic facts on the ring -/

theorem SIZE_pos : 0 < SIZE := by
  unfold SIZE; omega

theorem WF_new : LockFreeQueue.new.WF :=
  ⟨List.length_replicate _ _, SIZE_pos, SIZE_pos⟩

theorem next_eq (t : Nat) : ((t + 1) % SIZE_T_RANGE) % SIZE = (t + 1) % SIZE := by
  simp only [SIZE, SIZE_T_RANGE]
  omega

theorem push_full (q : LockFreeQueue) (v : Int)
    (h : ((q.tail + 1) % SIZE_T_RANGE) % SIZE = q.head) : q.push v = (false, q) := by
  unfold LockFreeQueue.push
  simp [h]

theorem push_room (q : LockFreeQueue) (v : Int)
    (h : ((q.tail + 1) % SIZE_T_RANGE) % SIZE ≠ q.head) :
    q.push v = (true, { buffer := q.buffer.set q.tail v, head := q.head,
                        tail := ((q.tail + 1) % SIZE_T_RANGE) % SIZE }) := by
  unfold LockFreeQueue.push
  simp [h]

theorem pop_empty (q : LockFreeQueue) (value : Int) (h : q.head = q.tail) :
    q.pop value = (false, value, q) := by
  unfold LockFreeQueue.pop
  simp [h]

theorem pop_nonempty (q : LockFreeQueue) (value : Int) (h : q.head ≠ q.tail) :
    q.pop value = (true, q.buffer.getD q.head 0,
      { buffer := q.buffer, head := ((q.head + 1) % SIZE_T_RANGE) % SIZE, tail := q.tail }) := by
  unfold LockFreeQueue.pop
  simp [h]

theorem WF_push (q : LockFreeQueue) (v : Int) (hq : q.WF) : (q.push v).2.WF := by
  obtain ⟨hb, hh, ht⟩ := hq
  by_cases h : ((q.tail + 1) % SIZE_T_RANGE) % SIZE = q.head
  · rw [push_full q v h]; exact ⟨hb, hh, ht⟩
  · rw [push_room q v h]
    refine ⟨by simpa using hb, hh, ?_⟩
    show ((q.tail + 1) % SIZE_T_RANGE) % SIZE < SIZE
    exact Nat.mod_lt _ SIZE_pos

theorem WF_pop (q : LockFreeQueue) (value : Int) (hq : q.WF) : (q.pop value).2.2.WF := by
  obtain ⟨hb, hh, ht⟩ := hq
  by_cases h : q.head = q.tail
  · rw [pop_empty q value h]; exact ⟨hb, hh, ht⟩
  · rw [pop_nonempty q value h]
    refine ⟨hb, ?_, ht⟩
    show ((q.head + 1) % SIZE_T_RANGE) % SIZE < SIZE
    exact Nat.mod_lt _ SIZE_pos

theorem getD_set_self (l : List Int) (i : Nat) (v d : Int) (hi : i < l.length) :
    (l.set i v).getD i d = v := by
  simp [List.getD_eq_getElem?_getD, List.getElem?_set, hi]

theorem getD_set_ne (l : List Int) (i j : Nat) (v d : Int) (hij : j ≠ i) :
    (l.set i v).getD j d = l.getD j d := by
  simp [List.getD_eq_getElem?_getD, List.getElem?_set, Ne.symm hij]

theorem live_push (q : LockFreeQueue) (b : List Int) (hq : q.WF) (h : (q.tail + 1) % SIZE ≠ q.head) :
    LockFreeQueue.live { buffer := b, head := q.head, tail := (q.tail + 1) % SIZE }
      = q.live + 1 := by
  obtain ⟨_, hh, ht⟩ := hq
  simp only [LockFreeQueue.live, SIZE] at *
  omega

theorem live_pop (q : LockFreeQueue) (b : List Int) (hq : q.WF) (h : q.head ≠ q.tail) :
    q.live = LockFreeQueue.live { buffer := b, head := (q.head + 1) % SIZE, tail := q.tail } + 1 := by
  obtain ⟨_, hh, ht⟩ := hq
  simp only [LockFreeQueue.live, SIZE] at *
  omega

theorem slot_live (q : LockFreeQueue) (hq : q.WF) : (q.head + q.live) % SIZE = q.tail := by
  obtain ⟨_, hh, ht⟩ := hq
  simp only [LockFreeQueue.live, SIZE] at *
  omega

theorem slot_ne_tail (q : LockFreeQueue) (hq : q.WF) (i : Nat) (hi : i < q.live) :
    (q.head + i) % SIZE ≠ q.tail := by
  obtain ⟨_, hh, ht⟩ := hq
  simp only [LockFreeQueue.live, SIZE] at *
  omega

/-- A `push` that finds room appends its value to the represented list. -/
theorem toList_push (q : LockFreeQueue) (v : Int) (hq : q.WF)
    (h : ((q.tail + 1) % SIZE_T_RANGE) % SIZE ≠ q.head) :
    (q.push v).2.toList = q.toList ++ [v] := by
  rw [push_room q v h]
  rw [next_eq] at h ⊢
  show List.map _ (List.range (LockFreeQueue.live _)) = _
  rw [live_push q _ hq h, List.range_succ, List.map_append]
  simp only [LockFreeQueue.toList, List.map_cons, List.map_nil]
  congr 1
  · apply List.map_congr_left
    intro i hi
    rw [List.mem_range] at hi
    exact getD_set_ne _ _ _ _ _ (slot_ne_tail q hq i hi)
  · rw [slot_live q hq, getD_set_self]
    rw [hq.1]; exact hq.2.2

/-- A `pop` that finds an element delivers the first element of the represented
list and leaves the rest. -/
theorem toList_pop (q : LockFreeQueue) (value : Int) (hq : q.WF) (h : q.head ≠ q.tail) :
    q.toList = (q.pop value).2.1 :: (q.pop value).2.2.toList := by
  rw [pop_nonempty q value h]
  rw [next_eq]
  show List.map _ (List.range q.live) = _ :: List.map _ (List.range (LockFreeQueue.live _))
  rw [live_pop q q.buffer hq h, List.range_succ_eq_map, List.map_cons, List.map_map]
  congr 1
  · rw [Nat.add_zero, Nat.mod_eq_of_lt hq.2.1]
  · apply List.map_congr_left
    intro i _
    show q.buffer.getD ((q.head + (i + 1)) % SIZE) 0 = q.buffer.getD (((q.head + 1) % SIZE + i) % SIZE) 0
    congr 1
    simp only [SIZE]
    omega

theorem live_new : LockFreeQueue.new.live = 0 := by
  simp [LockFreeQueue.live, LockFreeQueue.new]

theorem toList_new : LockFreeQueue.new.toList = [] := by
  simp [LockFreeQueue.toList, live_new]

theorem length_toList (q : LockFreeQueue) : q.toList.length = q.live := by
  simp [LockFreeQueue.toList]

/-! ## Runs on the ring -/

theorem Good_start (value0 : Int) : (RingRun.start value0).Good :=
  ⟨WF_new, by simp [RingRun.start, toList_new]⟩

theorem Good_step (r : RingRun) (op : Op) (hr : r.Good) : (r.step op).Good := by
  obtain ⟨hwf, hl⟩ := hr
  cases op with
  | push v =>
    refine ⟨WF_push _ v hwf, ?_⟩
    by_cases h : ((r.queue.tail + 1) % SIZE_T_RANGE) % SIZE = r.queue.head
    · simp [RingRun.step, push_full _ v h, hl]
    · have ht := toList_push r.queue v hwf h
      simp only [RingRun.step, ht]
      simp [push_room _ v h, hl]
  | pop =>
    refine ⟨WF_pop _ r.value hwf, ?_⟩
    by_cases h : r.queue.head = r.queue.tail
    · simp [RingRun.step, pop_empty _ r.value h, hl]
    · have ht := toList_pop r.queue r.value hwf h
      simp only [RingRun.step, hl, ht]
      simp [pop_nonempty _ r.value h]

theorem Good_run (ops : List Op) : ∀ r : RingRun, r.Good → (r.run ops).Good := by
  induction ops with
  | nil => intro r hr; exact hr
  | cons op ops ih => intro r hr; exact ih (r.step op) (Good_step r op hr)

theorem Good_ringRun (value0 : Int) (ops : List Op) : (ringRun value0 ops).Good :=
  Good_run ops _ (Good_start value0)

/-! ## Claims on the ring: order -/

/-- C1. FIFO for the ring queue.  For every finite sequence of `push` and `pop`
calls made one at a time on a freshly constructed `LockFreeQueue`: the values
delivered by the successful pops are, in order, the first `k` of the values
successfully pushed, `k` being the number of successful pops; the values pushed
are the values popped followed by the list the state represents; and in the
state reached a successful `push` appends its value to that list, a successful
`pop` delivers its first element and leaves the rest. -/
theorem C1_ring_fifo (value0 : Int) (ops : List Op) :
    (ringRun value0 ops).popped
        = (ringRun value0 ops).pushed.take (ringRun value0 ops).popped.length
      ∧ (ringRun value0 ops).pushed
        = (ringRun value0 ops).popped ++ (ringRun value0 ops).queue.toList
      ∧ (∀ v : Int, ((ringRun value0 ops).queue.push v).1 = true →
          ((ringRun value0 ops).queue.push v).2.toList
            = (ringRun value0 ops).queue.toList ++ [v])
      ∧ (∀ value : Int, ((ringRun value0 ops).queue.pop value).1 = true →
          (ringRun value0 ops).queue.toList
            = ((ringRun value0 ops).queue.pop value).2.1
                :: ((ringRun value0 ops).queue.pop value).2.2.toList) := by
  obtain ⟨hwf, hl⟩ := Good_ringRun value0 ops
  refine ⟨?_, hl, ?_, ?_⟩
  · rw [hl, List.take_left]
  · intro v hv
    apply toList_push _ v hwf
    intro h
    rw [push_full _ v h] at hv
    exact Bool.noConfusion hv
  · intro value hv
    apply toList_pop _ value hwf
    intro h
    rw [pop_empty _ value h] at hv
    exact Bool.noConfusion hv

/-! ## Claims on the ring: the full boundary -/

theorem run_append (r : RingRun) (a b : List Op) : r.run (a ++ b) = (r.run a).run b := by
  simp [RingRun.run, List.foldl_append]

theorem run_cons (r : RingRun) (op : Op) (ops : List Op) :
    r.run (op :: ops) = (r.step op).run ops := rfl

theorem run_nil (r : RingRun) : r.run [] = r := rfl

/-- Pushes with no pop in between, while fewer than `SIZE - 1` values are held:
every one returns `true` and moves `tail` one slot forward. -/
theorem run_pushes (vs : List Int) : ∀ r : RingRun, r.queue.head = 0 →
    r.queue.tail + vs.length ≤ SIZE - 1 →
    (r.run (vs.map Op.push)).flags = r.flags ++ List.replicate vs.length true
      ∧ (r.run (vs.map Op.push)).queue.head = 0
      ∧ (r.run (vs.map Op.push)).queue.tail = r.queue.tail + vs.length := by
  induction vs with
  | nil => intro r hh _; simp [run_nil, hh]
  | cons v vs ih =>
    intro r hh ht
    have hroom : ((r.queue.tail + 1) % SIZE_T_RANGE) % SIZE ≠ r.queue.head := by
      rw [next_eq, hh]
      simp only [List.length_cons, SIZE] at *
      omega
    have hnext : (r.queue.tail + 1) % SIZE = r.queue.tail + 1 := by
      simp only [List.length_cons, SIZE] at *
      omega
    have hs : (r.step (Op.push v)).queue.head = 0
        ∧ (r.step (Op.push v)).queue.tail = r.queue.tail + 1
        ∧ (r.step (Op.push v)).flags = r.flags ++ [true] := by
      simp [RingRun.step, push_room _ v hroom, hh, next_eq, hnext]
    obtain ⟨h1, h2, h3⟩ := hs
    have := ih (r.step (Op.push v)) h1 (by
      rw [h2]; simp only [List.length_cons] at ht; omega)
    rw [List.map_cons, run_cons]
    obtain ⟨a, b, c⟩ := this
    refine ⟨?_, b, ?_⟩
    · rw [a, h3, List.length_cons, List.replicate_succ]; simp
    · rw [c, h2, List.length_cons]; omega

/-- C2. Full boundary of the ring with `SIZE = 1048576` slots.  On a freshly
constructed `LockFreeQueue`, `SIZE` pushes (of any values `vs`) with no pop in
between return `true` for the first `SIZE - 1 = 1048575` and `false` for the
last; the pop made next returns `true`, and the push made after it returns
`true` again. -/
theorem C2_ring_full_boundary (value0 : Int) (vs : List Int) (w : Int)
    (hvs : vs.length = SIZE) :
    SIZE = 1048576 ∧ SIZE - 1 = 1048575
      ∧ (ringRun value0 (vs.map Op.push ++ [Op.pop, Op.push w])).flags
        = List.replicate (SIZE - 1) true ++ [false, true, true] := by
  refine ⟨rfl, rfl, ?_⟩
  rcases List.eq_nil_or_concat vs with h | ⟨init, last, h⟩
  · rw [h] at hvs; exact absurd hvs (by simp [SIZE])
  rw [List.concat_eq_append] at h
  subst h
  have hlen : init.length = SIZE - 1 := by
    simp only [List.length_append, List.length_singleton] at hvs; omega
  obtain ⟨hf, hh, ht⟩ := run_pushes init (RingRun.start value0) rfl (by
    show 0 + init.length ≤ SIZE - 1
    omega)
  have ht1 : ((RingRun.start value0).run (init.map Op.push)).queue.tail = SIZE - 1 := by
    rw [ht, hlen]; show 0 + (SIZE - 1) = SIZE - 1; omega
  have hflags : ((RingRun.start value0).run (init.map Op.push)).flags
      = List.replicate (SIZE - 1) true := by
    rw [hf, hlen]; simp [RingRun.start]
  simp only [ringRun, List.map_append, List.map_cons, List.map_nil, List.append_assoc,
    run_append, run_cons, run_nil]
  generalize (RingRun.start value0).run (init.map Op.push) = r at hh ht1 hflags
  have hfull : ((r.queue.tail + 1) % SIZE_T_RANGE) % SIZE = r.queue.head := by
    rw [next_eq, ht1, hh]; simp [SIZE]
  have hne : r.queue.head ≠ r.queue.tail := by
    rw [hh, ht1]; simp [SIZE]
  have hroom : ((r.queue.tail + 1) % SIZE_T_RANGE) % SIZE
      ≠ ((r.queue.head + 1) % SIZE_T_RANGE) % SIZE := by
    rw [next_eq, next_eq, hh, ht1]; simp [SIZE]
  have h1 : (r.step (Op.push last)).flags = r.flags ++ [false]
      ∧ (r.step (Op.push last)).queue = r.queue := by
    simp [RingRun.step, push_full _ last hfull]
  obtain ⟨h1f, h1q⟩ := h1
  have h2 : ((r.step (Op.push last)).step Op.pop).flags = r.flags ++ [false] ++ [true]
      ∧ ((r.step (Op.push last)).step Op.pop).queue
        = { buffer := r.queue.buffer, head := ((r.queue.head + 1) % SIZE_T_RANGE) % SIZE,
            tail := r.queue.tail } := by
    constructor
    · show (r.step (Op.push last)).flags ++ [_] = _
      rw [h1f, h1q, pop_nonempty _ _ hne]
    · show ((r.step (Op.push last)).queue.pop _).2.2 = _
      rw [h1q, pop_nonempty _ _ hne]
  obtain ⟨h2f, h2q⟩ := h2
  show ((r.step (Op.push last)).step Op.pop).flags ++ [_] = _
  rw [h2f, h2q, push_room _ w hroom, hflags]
  simp

/-- C2 at the values `0, 0, ..., 0`. -/
theorem C2_ring_full_boundary_witness :
    (List.replicate SIZE (0 : Int)).length = SIZE
      ∧ SIZE = 1048576 ∧ SIZE - 1 = 1048575
      ∧ (ringRun 0 ((List.replicate SIZE (0 : Int)).map Op.push ++ [Op.pop, Op.push 0])).flags
        = List.replicate (SIZE - 1) true ++ [false, true, true] :=
  ⟨List.length_replicate _ _,
    C2_ring_full_boundary 0 (List.replicate SIZE 0) 0 (List.length_replicate _ _)⟩

/-! ## Claims on single calls at the empty queue -/

/-- C3. Round trip.  For every integer `v` and every empty ring state (a buffer
of `SIZE` slots and `head = tail = i` with `i < SIZE`, the last slot
`i = SIZE - 1` included), `push(v)` returns `true` and the `pop` made next
returns `true`, delivers exactly `v` and leaves the ring empty again
(`head = tail`, nothing represented); on the empty `MutexQueue`, `push(v)`
followed by `pop` returns `true`, delivers `v` and leaves the sequence empty. -/
theorem C3_round_trip (v value : Int) (buffer : List Int) (i : Nat)
    (hb : buffer.length = SIZE) (hi : i < SIZE) :
    LockFreeQueue.push { buffer := buffer, head := i, tail := i } v
        = (true, { buffer := buffer.set i v, head := i, tail := (i + 1) % SIZE })
      ∧ LockFreeQueue.pop
          (LockFreeQueue.push { buffer := buffer, head := i, tail := i } v).2 value
        = (true, v, { buffer := buffer.set i v, head := (i + 1) % SIZE, tail := (i + 1) % SIZE })
      ∧ (LockFreeQueue.pop
          (LockFreeQueue.push { buffer := buffer, head := i, tail := i } v).2 value).2.2.toList = []
      ∧ MutexQueue.pop (MutexQueue.push { q := [] } v) value = (true, v, { q := [] }) := by
  have hroom : ((i + 1) % SIZE_T_RANGE) % SIZE ≠ i := by
    rw [next_eq]; simp only [SIZE] at *; omega
  have hne : i ≠ (i + 1) % SIZE := by
    simp only [SIZE] at *; omega
  have hpush : LockFreeQueue.push { buffer := buffer, head := i, tail := i } v
      = (true, { buffer := buffer.set i v, head := i, tail := (i + 1) % SIZE }) := by
    rw [push_room _ v hroom, next_eq]
  have hpop : LockFreeQueue.pop
      { buffer := buffer.set i v, head := i, tail := (i + 1) % SIZE } value
      = (true, v, { buffer := buffer.set i v, head := (i + 1) % SIZE,
                    tail := (i + 1) % SIZE }) := by
    rw [pop_nonempty _ value hne, next_eq]
    show (true, (buffer.set i v).getD i 0, _) = _
    rw [getD_set_self _ _ _ _ (by rw [hb]; exact hi)]
  refine ⟨hpush, ?_, ?_, rfl⟩
  · rw [hpush]; exact hpop
  · rw [hpush]
    show (LockFreeQueue.pop _ value).2.2.toList = []
    rw [hpop]
    simp [LockFreeQueue.toList, LockFreeQueue.live]

/-- C3 at the last slot, `head = tail = SIZE - 1`, where the tail wraps to `0`. -/
theorem C3_round_trip_witness :
    (List.replicate SIZE (0 : Int)).length = SIZE ∧ SIZE - 1 < SIZE
      ∧ LockFreeQueue.push
          { buffer := List.replicate SIZE 0, head := SIZE - 1, tail := SIZE - 1 } 42
        = (true, { buffer := (List.replicate SIZE 0).set (SIZE - 1) 42, head := SIZE - 1,
                   tail := (SIZE - 1 + 1) % SIZE })
      ∧ LockFreeQueue.pop (LockFreeQueue.push
          { buffer := List.replicate SIZE 0, head := SIZE - 1, tail := SIZE - 1 } 42).2 7
        = (true, 42, { buffer := (List.replicate SIZE 0).set (SIZE - 1) 42,
                       head := (SIZE - 1 + 1) % SIZE, tail := (SIZE - 1 + 1) % SIZE })
      ∧ (LockFreeQueue.pop (LockFreeQueue.push
          { buffer := List.replicate SIZE 0, head := SIZE - 1, tail := SIZE - 1 } 42).2
            7).2.2.toList = []
      ∧ MutexQueue.pop (MutexQueue.push { q := [] } 42) 7 = (true, 42, { q := [] }) :=
  ⟨List.length_replicate _ _, Nat.sub_lt SIZE_pos Nat.one_pos,
    C3_round_trip 42 7 (List.replicate SIZE 0) (SIZE - 1) (List.length_replicate _ _)
      (Nat.sub_lt SIZE_pos Nat.one_pos)⟩

/-- C4. Empty boundary.  On a freshly constructed `LockFreeQueue` (`head = tail
= 0`) and on a fresh `MutexQueue` (empty sequence), `pop` returns `false`, the
queue afterwards is the queue before in every component, and the caller's
variable keeps the value it had. -/
theorem C4_pop_fresh (value : Int) :
    LockFreeQueue.new.head = 0 ∧ LockFreeQueue.new.tail = 0
      ∧ LockFreeQueue.new.pop value = (false, value, LockFreeQueue.new)
      ∧ MutexQueue.new.q = []
      ∧ MutexQueue.new.pop value = (false, value, MutexQueue.new) :=
  ⟨rfl, rfl, pop_empty _ value rfl, rfl, rfl⟩

/-! ## Claims on the ring: invariant and conservation -/

/-- C5. Ring invariant.  In the state reached from the constructor by any
sequence of `push` and `pop` calls, `head` and `tail` are both below `SIZE`, the
number of live elements `(tail - head) mod SIZE` is at most `SIZE - 1`, it is
zero iff `head = tail`, and it is `SIZE - 1` iff `(tail + 1) mod SIZE = head`. -/
theorem C5_ring_invariant (value0 : Int) (ops : List Op) :
    (ringRun value0 ops).queue.head < SIZE
      ∧ (ringRun value0 ops).queue.tail < SIZE
      ∧ (ringRun value0 ops).queue.live ≤ SIZE - 1
      ∧ ((ringRun value0 ops).queue.live = 0
          ↔ (ringRun value0 ops).queue.head = (ringRun value0 ops).queue.tail)
      ∧ ((ringRun value0 ops).queue.live = SIZE - 1
          ↔ ((ringRun value0 ops).queue.tail + 1) % SIZE = (ringRun value0 ops).queue.head) := by
  obtain ⟨⟨_, hh, ht⟩, _⟩ := Good_ringRun value0 ops
  generalize (ringRun value0 ops).queue = q at hh ht
  simp only [LockFreeQueue.live, SIZE] at *
  omega

/-- C6. Conservation for the ring.  After any sequence of `push` and `pop`
calls on a freshly constructed `LockFreeQueue`, the number of successful pushes
minus the number of successful pops is the number of live elements
`(tail - head) mod SIZE`, which is also the length of the represented list; the
successful pops do not exceed the successful pushes; the two totals are equal
exactly when `head = tail`; and every value popped is a value that was pushed. -/
theorem C6_ring_conservation (value0 : Int) (ops : List Op) :
    ((ringRun value0 ops).pushed.length : Int) - ((ringRun value0 ops).popped.length : Int)
        = ((ringRun value0 ops).queue.live : Int)
      ∧ (ringRun value0 ops).queue.toList.length = (ringRun value0 ops).queue.live
      ∧ (ringRun value0 ops).popped.length ≤ (ringRun value0 ops).pushed.length
      ∧ ((ringRun value0 ops).pushed.length = (ringRun value0 ops).popped.length
          ↔ (ringRun value0 ops).queue.head = (ringRun value0 ops).queue.tail)
      ∧ (∀ x ∈ (ringRun value0 ops).popped, x ∈ (ringRun value0 ops).pushed) := by
  obtain ⟨⟨_, hh, ht⟩, hl⟩ := Good_ringRun value0 ops
  have hlen := congrArg List.length hl
  rw [List.length_append, length_toList] at hlen
  have hzero : (ringRun value0 ops).queue.live = 0
      ↔ (ringRun value0 ops).queue.head = (ringRun value0 ops).queue.tail := by
    generalize (ringRun value0 ops).queue = q at hh ht
    simp only [LockFreeQueue.live, SIZE] at *
    omega
  refine ⟨by omega, length_toList _, by omega, ?_, ?_⟩
  · rw [← hzero]; omega
  · intro x hx
    rw [hl]
    exact List.mem_append_left _ hx

/-! ## Claims on `MutexQueue` -/

theorem mutex_pop_nil (value : Int) :
    MutexQueue.pop { q := [] } value = (false, value, { q := [] }) := rfl

theorem mutex_pop_cons (x : Int) (xs : List Int) (value : Int) :
    MutexQueue.pop { q := x :: xs } value = (true, x, { q := xs }) := rfl

theorem mutex_step_keeps (r : MutexRun) (op : Op) (hr : r.pushed = r.popped ++ r.queue.q) :
    (r.step op).pushed = (r.step op).popped ++ (r.step op).queue.q := by
  cases op with
  | push v => simp [MutexRun.step, MutexQueue.push, hr]
  | pop =>
    obtain ⟨⟨xs⟩, value, flags, pushed, popped⟩ := r
    cases xs with
    | nil => simpa [MutexRun.step, MutexQueue.pop] using hr
    | cons x xs => simpa [MutexRun.step, MutexQueue.pop] using hr

theorem mutex_run_keeps (ops : List Op) : ∀ r : MutexRun,
    r.pushed = r.popped ++ r.queue.q →
    (r.run ops).pushed = (r.run ops).popped ++ (r.run ops).queue.q := by
  induction ops with
  | nil => intro r hr; exact hr
  | cons op ops ih => intro r hr; exact ih (r.step op) (mutex_step_keeps r op hr)

theorem mutex_run_pushes (vs : List Int) : ∀ r : MutexRun,
    (r.run (vs.map Op.push)).queue.q = r.queue.q ++ vs
      ∧ (r.run (vs.map Op.push)).pushed = r.pushed ++ vs
      ∧ (r.run (vs.map Op.push)).flags = r.flags := by
  induction vs with
  | nil => intro r; simp [MutexRun.run]
  | cons v vs ih =>
    intro r
    obtain ⟨a, b, c⟩ := ih (r.step (Op.push v))
    refine ⟨?_, ?_, ?_⟩
    · show ((r.step (Op.push v)).run (vs.map Op.push)).queue.q = _
      rw [a]; simp [MutexRun.step, MutexQueue.push]
    · show ((r.step (Op.push v)).run (vs.map Op.push)).pushed = _
      rw [b]; simp [MutexRun.step]
    · show ((r.step (Op.push v)).run (vs.map Op.push)).flags = _
      rw [c]; rfl

/-- C7. `MutexQueue` is a FIFO list queue.  On the sequence `xs`, `push(v)`
leaves `xs ++ [v]`; `pop` returns `false` iff the sequence is empty, and then
the sequence and the caller's variable are as before; on `x :: xs` it returns
`true`, sets the variable to `x` and leaves `xs`.  Hence after any sequence of
calls on a fresh `MutexQueue` the values pushed are the values popped followed
by the sequence held, so the successful pops delivered the first values pushed,
in push order. -/
theorem C7_mutex_fifo (value0 value v x : Int) (xs : List Int) (ops : List Op) :
    MutexQueue.push { q := xs } v = { q := xs ++ [v] }
      ∧ ((MutexQueue.pop { q := xs } value).1 = false ↔ xs = [])
      ∧ MutexQueue.pop { q := [] } value = (false, value, { q := [] })
      ∧ MutexQueue.pop { q := x :: xs } value = (true, x, { q := xs })
      ∧ (mutexRun value0 ops).pushed = (mutexRun value0 ops).popped ++ (mutexRun value0 ops).queue.q
      ∧ (mutexRun value0 ops).popped
        = (mutexRun value0 ops).pushed.take (mutexRun value0 ops).popped.length := by
  have hl : (mutexRun value0 ops).pushed
      = (mutexRun value0 ops).popped ++ (mutexRun value0 ops).queue.q :=
    mutex_run_keeps ops _ rfl
  refine ⟨rfl, ?_, rfl, rfl, hl, ?_⟩
  · cases xs with
    | nil => simp [mutex_pop_nil]
    | cons y ys => simp [mutex_pop_cons]
  · rw [hl, List.take_left]

/-- C8. `MutexQueue` is unbounded.  Any number of consecutive pushes with no
pop on a fresh `MutexQueue` (of the values `vs`, however many) leaves the queue
holding exactly `vs`, in order: all of them were taken.  `push` returns no flag
(none is recorded by the run) and every pushed value is counted as pushed. -/
theorem C8_mutex_unbounded (value0 : Int) (vs : List Int) :
    (mutexRun value0 (vs.map Op.push)).queue.q = vs
      ∧ (mutexRun value0 (vs.map Op.push)).queue.q.length = vs.length
      ∧ (mutexRun value0 (vs.map Op.push)).pushed = vs
      ∧ (mutexRun value0 (vs.map Op.push)).flags = [] := by
  obtain ⟨a, b, c⟩ := mutex_run_pushes vs (MutexRun.start value0)
  have hq : (mutexRun value0 (vs.map Op.push)).queue.q = vs := by
    show ((MutexRun.start value0).run (vs.map Op.push)).queue.q = vs
    rw [a]; simp [MutexRun.start, MutexQueue.new]
  refine ⟨hq, by rw [hq], ?_, ?_⟩
  · show ((MutexRun.start value0).run (vs.map Op.push)).pushed = vs
    rw [b]; simp [MutexRun.start]
  · show ((MutexRun.start value0).run (vs.map Op.push)).flags = []
    rw [c]; rfl

/-! ## Claims on the ring: failing calls -/

/-- C9. Ring `push` fails exactly when full, atomically.  In every state reached
from the constructor and for every value `v`, `push(v)` returns `false` iff
`(tail + 1) mod SIZE = head`, and when it returns `false` the queue afterwards
(buffer, `head`, `tail`) is the queue before: `v` is written to no slot. -/
theorem C9_ring_push_full (value0 : Int) (ops : List Op) (v : Int) :
    (((ringRun value0 ops).queue.push v).1 = false
        ↔ ((ringRun value0 ops).queue.tail + 1) % SIZE = (ringRun value0 ops).queue.head)
      ∧ (((ringRun value0 ops).queue.push v).1 = false →
          ((ringRun value0 ops).queue.push v).2 = (ringRun value0 ops).queue) := by
  generalize (ringRun value0 ops).queue = q
  by_cases h : ((q.tail + 1) % SIZE_T_RANGE) % SIZE = q.head
  · rw [push_full q v h]
    rw [next_eq] at h
    simp [h]
  · rw [push_room q v h]
    rw [next_eq] at h
    simp [h]

/-- C10. Ring `pop` fails exactly when empty, atomically.  In every state reached
from the constructor, `pop` returns `false` iff `head = tail`, and when it
returns `false` the queue afterwards (buffer, `head`, `tail`) is the queue
before and the caller's variable keeps its value. -/
theorem C10_ring_pop_empty (value0 : Int) (ops : List Op) (value : Int) :
    (((ringRun value0 ops).queue.pop value).1 = false
        ↔ (ringRun value0 ops).queue.head = (ringRun value0 ops).queue.tail)
      ∧ (((ringRun value0 ops).queue.pop value).1 = false →
          ((ringRun value0 ops).queue.pop value).2.2 = (ringRun value0 ops).queue
            ∧ ((ringRun value0 ops).queue.pop value).2.1 = value) := by
  generalize (ringRun value0 ops).queue = q
  by_cases h : q.head = q.tail
  · rw [pop_empty q value h]
    simp [h]
  · rw [pop_nonempty q value h]
    simp [h]

/-! ## Claims on the ring: successful calls -/

theorem getElem?_set_self_of_lt (l : List Int) (i : Nat) (v : Int) (hi : i < l.length) :
    (l.set i v)[i]? = some v := by
  simp [List.getElem?_set, hi]

theorem getElem?_set_of_ne (l : List Int) (i j : Nat) (v : Int) (hij : j ≠ i) :
    (l.set i v)[j]? = l[j]? := by
  simp [List.getElem?_set, Ne.symm hij]

theorem getD_eq_of_lt (l : List Int) (i : Nat) (d : Int) (hi : i < l.length) :
    l[i]? = some (l.getD i d) := by
  simp [List.getD_eq_getElem?_getD, List.getElem?_eq_getElem hi]

/-- C12. Successful ring `push`: postcondition and frame.  In every state
reached from the constructor with `(tail + 1) mod SIZE ≠ head` and for every
value `v`, `push(v)` returns `true`; the buffer afterwards is the buffer before
with the slot at the old `tail` (an index of the buffer) holding `v` and every
other slot as before; the new `tail` is `(old tail + 1) mod SIZE`; `head` is
unchanged. -/
theorem C12_ring_push_success (value0 : Int) (ops : List Op) (v : Int)
    (hroom : ((ringRun value0 ops).queue.tail + 1) % SIZE ≠ (ringRun value0 ops).queue.head) :
    ((ringRun value0 ops).queue.push v).1 = true
      ∧ ((ringRun value0 ops).queue.push v).2.buffer
        = (ringRun value0 ops).queue.buffer.set (ringRun value0 ops).queue.tail v
      ∧ (ringRun value0 ops).queue.tail < (ringRun value0 ops).queue.buffer.length
      ∧ ((ringRun value0 ops).queue.push v).2.buffer[(ringRun value0 ops).queue.tail]? = some v
      ∧ (∀ j : Nat, j ≠ (ringRun value0 ops).queue.tail →
          ((ringRun value0 ops).queue.push v).2.buffer[j]?
            = (ringRun value0 ops).queue.buffer[j]?)
      ∧ ((ringRun value0 ops).queue.push v).2.buffer.length
        = (ringRun value0 ops).queue.buffer.length
      ∧ ((ringRun value0 ops).queue.push v).2.tail = ((ringRun value0 ops).queue.tail + 1) % SIZE
      ∧ ((ringRun value0 ops).queue.push v).2.head = (ringRun value0 ops).queue.head := by
  obtain ⟨⟨hb, _, ht⟩, _⟩ := Good_ringRun value0 ops
  generalize (ringRun value0 ops).queue = q at hroom hb ht
  have hlt : q.tail < q.buffer.length := by rw [hb]; exact ht
  rw [← next_eq] at hroom
  rw [push_room q v hroom, next_eq]
  exact ⟨rfl, rfl, hlt, getElem?_set_self_of_lt _ _ _ hlt,
    fun j hj => getElem?_set_of_ne _ _ _ _ hj, List.length_set _ _ _, rfl, rfl⟩

/-- C12 at the freshly constructed ring and the value `5`. -/
theorem C12_ring_push_success_witness :
    ((ringRun 0 []).queue.tail + 1) % SIZE ≠ (ringRun 0 []).queue.head
      ∧ ((ringRun 0 []).queue.push 5).1 = true
      ∧ ((ringRun 0 []).queue.push 5).2.buffer
        = (ringRun 0 []).queue.buffer.set (ringRun 0 []).queue.tail 5
      ∧ (ringRun 0 []).queue.tail < (ringRun 0 []).queue.buffer.length
      ∧ ((ringRun 0 []).queue.push 5).2.buffer[(ringRun 0 []).queue.tail]? = some 5
      ∧ (∀ j : Nat, j ≠ (ringRun 0 []).queue.tail →
          ((ringRun 0 []).queue.push 5).2.buffer[j]? = (ringRun 0 []).queue.buffer[j]?)
      ∧ ((ringRun 0 []).queue.push 5).2.buffer.length = (ringRun 0 []).queue.buffer.length
      ∧ ((ringRun 0 []).queue.push 5).2.tail = ((ringRun 0 []).queue.tail + 1) % SIZE
      ∧ ((ringRun 0 []).queue.push 5).2.head = (ringRun 0 []).queue.head :=
  ⟨by decide, C12_ring_push_success 0 [] 5 (by decide)⟩

/-- C13. Successful ring `pop`: postcondition and frame.  In every state reached
from the constructor with `head ≠ tail`, `pop` returns `true`; the old `head` is
an index of the buffer and the value delivered is the slot at it; the new `head`
is `(old head + 1) mod SIZE`; `tail` and the whole buffer are unchanged. -/
theorem C13_ring_pop_success (value0 : Int) (ops : List Op) (value : Int)
    (hne : (ringRun value0 ops).queue.head ≠ (ringRun value0 ops).queue.tail) :
    ((ringRun value0 ops).queue.pop value).1 = true
      ∧ (ringRun value0 ops).queue.head < (ringRun value0 ops).queue.buffer.length
      ∧ (ringRun value0 ops).queue.buffer[(ringRun value0 ops).queue.head]?
        = some ((ringRun value0 ops).queue.pop value).2.1
      ∧ ((ringRun value0 ops).queue.pop value).2.2.head
        = ((ringRun value0 ops).queue.head + 1) % SIZE
      ∧ ((ringRun value0 ops).queue.pop value).2.2.tail = (ringRun value0 ops).queue.tail
      ∧ ((ringRun value0 ops).queue.pop value).2.2.buffer = (ringRun value0 ops).queue.buffer := by
  obtain ⟨⟨hb, hh, _⟩, _⟩ := Good_ringRun value0 ops
  generalize (ringRun value0 ops).queue = q at hne hb hh
  have hlt : q.head < q.buffer.length := by rw [hb]; exact hh
  rw [pop_nonempty q value hne, next_eq]
  exact ⟨rfl, hlt, getD_eq_of_lt _ _ _ hlt, rfl, rfl, rfl⟩

/-- C13 at the ring holding the one value `5`. -/
theorem C13_ring_pop_success_witness :
    (ringRun 0 [Op.push 5]).queue.head ≠ (ringRun 0 [Op.push 5]).queue.tail
      ∧ ((ringRun 0 [Op.push 5]).queue.pop 7).1 = true
      ∧ (ringRun 0 [Op.push 5]).queue.head < (ringRun 0 [Op.push 5]).queue.buffer.length
      ∧ (ringRun 0 [Op.push 5]).queue.buffer[(ringRun 0 [Op.push 5]).queue.head]?
        = some ((ringRun 0 [Op.push 5]).queue.pop 7).2.1
      ∧ ((ringRun 0 [Op.push 5]).queue.pop 7).2.2.head
        = ((ringRun 0 [Op.push 5]).queue.head + 1) % SIZE
      ∧ ((ringRun 0 [Op.push 5]).queue.pop 7).2.2.tail = (ringRun 0 [Op.push 5]).queue.tail
      ∧ ((ringRun 0 [Op.push 5]).queue.pop 7).2.2.buffer = (ringRun 0 [Op.push 5]).queue.buffer :=
  ⟨by decide, C13_ring_pop_success 0 [Op.push 5] 7 (by decide)⟩

/-! ## The ring against the mutex queue -/

theorem mrun_cons (m : MutexRun) (op : Op) (ops : List Op) :
    m.run (op :: ops) = (m.step op).run ops := rfl

theorem mrun_nil (m : MutexRun) : m.run [] = m := rfl

theorem mrun_append (m : MutexRun) (a b : List Op) : m.run (a ++ b) = (m.run a).run b := by
  simp [MutexRun.run, List.foldl_append]

theorem room_of_live (q : LockFreeQueue) (hq : q.WF) (h : q.live + 1 ≤ SIZE - 1) :
    ((q.tail + 1) % SIZE_T_RANGE) % SIZE ≠ q.head := by
  rw [next_eq]
  obtain ⟨_, hh, ht⟩ := hq
  simp only [LockFreeQueue.live, SIZE] at *
  omega

theorem live_eq_zero_iff (q : LockFreeQueue) (hq : q.WF) : q.live = 0 ↔ q.head = q.tail := by
  obtain ⟨_, hh, ht⟩ := hq
  simp only [LockFreeQueue.live, SIZE] at *
  omega

theorem Sim_start (value0 : Int) : Sim (RingRun.start value0) (MutexRun.start value0) :=
  ⟨WF_new, toList_new, rfl, rfl, rfl⟩

theorem Sim_push (r : RingRun) (m : MutexRun) (v : Int) (h : Sim r m)
    (hcap : (m.step (Op.push v)).queue.q.length ≤ SIZE - 1) :
    (r.queue.push v).1 = true ∧ Sim (r.step (Op.push v)) (m.step (Op.push v)) := by
  obtain ⟨hwf, hl, hv, hpu, hpo⟩ := h
  have hlen : r.queue.live + 1 ≤ SIZE - 1 := by
    rw [← length_toList, hl]
    simpa [MutexRun.step, MutexQueue.push] using hcap
  have hroom := room_of_live r.queue hwf hlen
  have ht := toList_push r.queue v hwf hroom
  have hf : (r.queue.push v).1 = true := by rw [push_room _ v hroom]
  refine ⟨hf, WF_push _ v hwf, ?_, hv, ?_, hpo⟩
  · show (r.queue.push v).2.toList = m.queue.q ++ [v]
    rw [ht, hl]
  · show (if (r.queue.push v).1 then r.pushed ++ [v] else r.pushed) = m.pushed ++ [v]
    rw [hf, hpu]; rfl

theorem Sim_pop (r : RingRun) (m : MutexRun) (h : Sim r m) :
    (r.queue.pop r.value).1 = (m.queue.pop m.value).1
      ∧ (r.queue.pop r.value).2.1 = (m.queue.pop m.value).2.1
      ∧ Sim (r.step Op.pop) (m.step Op.pop) := by
  obtain ⟨hwf, hl, hv, hpu, hpo⟩ := h
  obtain ⟨⟨xs⟩, mvalue, mflags, mpushed, mpopped⟩ := m
  simp only at hl hv hpu hpo
  cases xs with
  | nil =>
    have hz : r.queue.live = 0 := by rw [← length_toList, hl]; rfl
    have he := (live_eq_zero_iff _ hwf).1 hz
    have hp := pop_empty r.queue r.value he
    refine ⟨by rw [hp]; rfl, by rw [hp]; exact hv, ?_, ?_, ?_, hpu, ?_⟩
    · show (r.queue.pop r.value).2.2.WF
      rw [hp]; exact hwf
    · show (r.queue.pop r.value).2.2.toList = []
      rw [hp]; exact hl
    · show (r.queue.pop r.value).2.1 = mvalue
      rw [hp]; exact hv
    · show (if (r.queue.pop r.value).1 then r.popped ++ [(r.queue.pop r.value).2.1]
        else r.popped) = mpopped
      rw [hp]; exact hpo
  | cons x xs =>
    have hne : r.queue.head ≠ r.queue.tail := by
      intro he
      have hz := (live_eq_zero_iff _ hwf).2 he
      rw [← length_toList, hl] at hz
      simp at hz
    have ht := toList_pop r.queue r.value hwf hne
    rw [hl] at ht
    have hx : x = (r.queue.pop r.value).2.1 := (List.cons.inj ht).1
    have hxs : xs = (r.queue.pop r.value).2.2.toList := (List.cons.inj ht).2
    have hf : (r.queue.pop r.value).1 = true := by rw [pop_nonempty _ _ hne]
    refine ⟨hf, hx.symm, WF_pop _ _ hwf, hxs.symm, hx.symm, hpu, ?_⟩
    show (if (r.queue.pop r.value).1 then r.popped ++ [(r.queue.pop r.value).2.1]
      else r.popped) = mpopped ++ [x]
    rw [hf, hpo, hx]; rfl

theorem Sim_step (r : RingRun) (m : MutexRun) (op : Op) (h : Sim r m)
    (hcap : (m.step op).queue.q.length ≤ SIZE - 1) : Sim (r.step op) (m.step op) := by
  cases op with
  | push v => exact (Sim_push r m v h hcap).2
  | pop => exact (Sim_pop r m h).2.2

theorem Sim_run (pre : List Op) : ∀ (r : RingRun) (m : MutexRun), Sim r m →
    (∀ p s : List Op, pre = p ++ s → (m.run p).queue.q.length ≤ SIZE - 1) →
    Sim (r.run pre) (m.run pre) := by
  induction pre with
  | nil => intro r m h _; exact h
  | cons op pre ih =>
    intro r m h hcap
    have h1 : Sim (r.step op) (m.step op) :=
      Sim_step r m op h (hcap [op] pre rfl)
    exact ih (r.step op) (m.step op) h1 (fun p s hps => hcap (op :: p) s (by rw [hps]; rfl))

theorem mutex_length_le (ops : List Op) : ∀ m : MutexRun,
    (m.run ops).queue.q.length ≤ m.queue.q.length + ops.length := by
  induction ops with
  | nil => intro m; exact Nat.le_refl _
  | cons op ops ih =>
    intro m
    have h := ih (m.step op)
    have h1 : (m.step op).queue.q.length ≤ m.queue.q.length + 1 := by
      cases op with
      | push v => simp [MutexRun.step, MutexQueue.push]
      | pop =>
        obtain ⟨⟨xs⟩, mvalue, mflags, mpushed, mpopped⟩ := m
        cases xs with
        | nil => simp [MutexRun.step, MutexQueue.pop]
        | cons y ys => simp only [MutexRun.step, MutexQueue.pop, List.length_cons]; omega
    rw [mrun_cons, List.length_cons]
    omega

/-- C14. Interchangeability of the two queues below capacity.  Take a finite
sequence of calls during which the number of live elements, counted on the
unbounded `MutexQueue` run from fresh, never exceeds `SIZE - 1 = 1048575`.
Then, run on a freshly constructed `LockFreeQueue` and on a fresh `MutexQueue`,
the two runs agree after every call: the list the ring represents is the
sequence of the `MutexQueue`, and the caller's variable and the values pushed
and popped so far are the same; every ring `push` of the sequence returns
`true`; every `pop` of the sequence returns the same flag and the same value on
both queues. -/
theorem C14_ring_refines_mutex (value0 : Int) (ops : List Op)
    (hcap : ∀ pre post : List Op, ops = pre ++ post →
      (mutexRun value0 pre).queue.q.length ≤ SIZE - 1) :
    SIZE - 1 = 1048575
      ∧ (∀ pre post : List Op, ops = pre ++ post →
          (ringRun value0 pre).queue.toList = (mutexRun value0 pre).queue.q
            ∧ (ringRun value0 pre).value = (mutexRun value0 pre).value
            ∧ (ringRun value0 pre).pushed = (mutexRun value0 pre).pushed
            ∧ (ringRun value0 pre).popped = (mutexRun value0 pre).popped)
      ∧ (∀ (pre : List Op) (v : Int) (post : List Op), ops = pre ++ Op.push v :: post →
          ((ringRun value0 pre).queue.push v).1 = true)
      ∧ (∀ pre post : List Op, ops = pre ++ Op.pop :: post →
          ((ringRun value0 pre).queue.pop (ringRun value0 pre).value).1
              = ((mutexRun value0 pre).queue.pop (mutexRun value0 pre).value).1
            ∧ ((ringRun value0 pre).queue.pop (ringRun value0 pre).value).2.1
              = ((mutexRun value0 pre).queue.pop (mutexRun value0 pre).value).2.1) := by
  have hsim : ∀ pre post : List Op, ops = pre ++ post →
      Sim (ringRun value0 pre) (mutexRun value0 pre) := by
    intro pre post h
    apply Sim_run pre _ _ (Sim_start value0)
    intro p s hps
    exact hcap p (s ++ post) (by rw [h, hps, List.append_assoc])
  refine ⟨rfl, ?_, ?_, ?_⟩
  · intro pre post h
    obtain ⟨_, a, b, c, d⟩ := hsim pre post h
    exact ⟨a, b, c, d⟩
  · intro pre v post h
    have hs := hsim pre (Op.push v :: post) h
    have hc := hcap (pre ++ [Op.push v]) post (by rw [h]; simp)
    have hc1 : ((mutexRun value0 pre).step (Op.push v)).queue.q.length ≤ SIZE - 1 := by
      have : mutexRun value0 (pre ++ [Op.push v]) = (mutexRun value0 pre).step (Op.push v) := by
        show (MutexRun.start value0).run (pre ++ [Op.push v]) = _
        rw [mrun_append, mrun_cons, mrun_nil]; rfl
      rw [← this]; exact hc
    exact (Sim_push _ _ v hs hc1).1
  · intro pre post h
    have hs := hsim pre (Op.pop :: post) h
    exact ⟨(Sim_pop _ _ hs).1, (Sim_pop _ _ hs).2.1⟩

/-- C14 at the calls `push(5)`, `pop`, `pop`. -/
theorem C14_ring_refines_mutex_witness :
    (∀ pre post : List Op, [Op.push 5, Op.pop, Op.pop] = pre ++ post →
      (mutexRun 0 pre).queue.q.length ≤ SIZE - 1)
      ∧ SIZE - 1 = 1048575
      ∧ (∀ pre post : List Op, [Op.push 5, Op.pop, Op.pop] = pre ++ post →
          (ringRun 0 pre).queue.toList = (mutexRun 0 pre).queue.q
            ∧ (ringRun 0 pre).value = (mutexRun 0 pre).value
            ∧ (ringRun 0 pre).pushed = (mutexRun 0 pre).pushed
            ∧ (ringRun 0 pre).popped = (mutexRun 0 pre).popped)
      ∧ (∀ (pre : List Op) (v : Int) (post : List Op),
          [Op.push 5, Op.pop, Op.pop] = pre ++ Op.push v :: post →
          ((ringRun 0 pre).queue.push v).1 = true)
      ∧ (∀ pre post : List Op, [Op.push 5, Op.pop, Op.pop] = pre ++ Op.pop :: post →
          ((ringRun 0 pre).queue.pop (ringRun 0 pre).value).1
              = ((mutexRun 0 pre).queue.pop (mutexRun 0 pre).value).1
            ∧ ((ringRun 0 pre).queue.pop (ringRun 0 pre).value).2.1
              = ((mutexRun 0 pre).queue.pop (mutexRun 0 pre).value).2.1) :=
  have hcap : ∀ pre post : List Op, [Op.push 5, Op.pop, Op.pop] = pre ++ post →
      (mutexRun 0 pre).queue.q.length ≤ SIZE - 1 := by
    intro pre post h
    have hlen := congrArg List.length h
    simp only [List.length_cons, List.length_nil, List.length_append] at hlen
    have hle := mutex_length_le pre (MutexRun.start 0)
    have h0 : (MutexRun.start 0).queue.q.length = 0 := rfl
    show ((MutexRun.start 0).run pre).queue.q.length ≤ SIZE - 1
    simp only [SIZE]
    omega
  ⟨hcap, C14_ring_refines_mutex 0 [Op.push 5, Op.pop, Op.pop] hcap⟩

/-! ## Claims on the ring: one attempt per call, index safety -/

theorem push_exec (q : LockFreeQueue) (v : Int) (hq : q.WF) :
    ∃ c : PushCfg, PushCfg.exec v 6 (PushCfg.entry q) = some c
      ∧ c.pc = PushPc.halted (q.push v).1 ∧ c.queue = (q.push v).2 := by
  have hlt : q.tail < q.buffer.length := by rw [hq.1]; exact hq.2.2
  by_cases h : ((q.tail + 1) % SIZE_T_RANGE) % SIZE = q.head
  · rw [push_full q v h]
    simp [PushCfg.exec, PushCfg.step, PushCfg.entry, h]
  · rw [push_room q v h]
    simp [PushCfg.exec, PushCfg.step, PushCfg.entry, h, hlt]

theorem pop_exec (q : LockFreeQueue) (value : Int) (hq : q.WF) :
    ∃ c : PopCfg, PopCfg.exec 5 (PopCfg.entry q value) = some c
      ∧ c.pc = PopPc.halted (q.pop value).1 ∧ c.value = (q.pop value).2.1
      ∧ c.queue = (q.pop value).2.2 := by
  have hlt : q.head < q.buffer.length := by rw [hq.1]; exact hq.2.1
  by_cases h : q.head = q.tail
  · rw [pop_empty q value h]
    simp [PopCfg.exec, PopCfg.step, PopCfg.entry, h]
  · rw [pop_nonempty q value h]
    have hslot := getD_eq_of_lt q.buffer q.head 0 hlt
    generalize q.buffer.getD q.head 0 = x at hslot
    simp [PopCfg.exec, PopCfg.step, PopCfg.entry, h, hslot]

theorem push_step_forward (v : Int) (c c1 : PushCfg) (h : c.step v = some c1) :
    c.pc.rank < c1.pc.rank ∨ ((∃ b : Bool, c.pc = PushPc.halted b) ∧ c1 = c) := by
  obtain ⟨pc, t, next, queue⟩ := c
  cases pc with
  | loadTail => left; simp only [PushCfg.step, Option.some.injEq] at h; subst h; simp [PushPc.rank]
  | computeNext => left; simp only [PushCfg.step, Option.some.injEq] at h; subst h; simp [PushPc.rank]
  | testFull =>
    left
    simp only [PushCfg.step] at h
    split at h <;> (simp only [Option.some.injEq] at h; subst h; simp [PushPc.rank])
  | returnFalse => left; simp only [PushCfg.step, Option.some.injEq] at h; subst h; simp [PushPc.rank]
  | storeSlot =>
    left
    simp only [PushCfg.step] at h
    split at h
    · simp only [Option.some.injEq] at h; subst h; simp [PushPc.rank]
    · exact Option.noConfusion h
  | storeTail => left; simp only [PushCfg.step, Option.some.injEq] at h; subst h; simp [PushPc.rank]
  | returnTrue => left; simp only [PushCfg.step, Option.some.injEq] at h; subst h; simp [PushPc.rank]
  | halted b =>
    right
    simp only [PushCfg.step, Option.some.injEq] at h
    exact ⟨⟨b, rfl⟩, h.symm⟩

theorem pop_step_forward (c c1 : PopCfg) (h : c.step = some c1) :
    c.pc.rank < c1.pc.rank ∨ ((∃ b : Bool, c.pc = PopPc.halted b) ∧ c1 = c) := by
  obtain ⟨pc, hd, value, queue⟩ := c
  cases pc with
  | loadHead => left; simp only [PopCfg.step, Option.some.injEq] at h; subst h; simp [PopPc.rank]
  | testEmpty =>
    left
    simp only [PopCfg.step] at h
    split at h <;> (simp only [Option.some.injEq] at h; subst h; simp [PopPc.rank])
  | returnFalse => left; simp only [PopCfg.step, Option.some.injEq] at h; subst h; simp [PopPc.rank]
  | loadSlot =>
    left
    simp only [PopCfg.step] at h
    split at h
    · simp only [Option.some.injEq] at h; subst h; simp [PopPc.rank]
    · exact Option.noConfusion h
  | storeHead => left; simp only [PopCfg.step, Option.some.injEq] at h; subst h; simp [PopPc.rank]
  | returnTrue => left; simp only [PopCfg.step, Option.some.injEq] at h; subst h; simp [PopPc.rank]
  | halted b =>
    right
    simp only [PopCfg.step, Option.some.injEq] at h
    exact ⟨⟨b, rfl⟩, h.symm⟩

/-- C15. Single non-blocking attempt.  Executed one statement of the source per
step, `LockFreeQueue::push` and `LockFreeQueue::pop` have no loop: every step
from a program point that is not a `return` already taken leads to a point
strictly later in the text of the function (there is no backward jump, and no
call).  So a call completes in a fixed bounded number of steps: from every
well-formed state of the ring (a buffer of `SIZE` slots, both cursors below
`SIZE`) and for every value, `push` has halted after at most 6 steps and `pop`
after at most 5, with the flag, the delivered value and the queue that
`LockFreeQueue.push` and `LockFreeQueue.pop` return. -/
theorem C15_ring_single_attempt (q : LockFreeQueue) (v value : Int) (hq : q.WF) :
    (∃ c : PushCfg, PushCfg.exec v 6 (PushCfg.entry q) = some c
        ∧ c.pc = PushPc.halted (q.push v).1 ∧ c.queue = (q.push v).2)
      ∧ (∀ c c1 : PushCfg, c.step v = some c1 →
          c.pc.rank < c1.pc.rank ∨ ((∃ b : Bool, c.pc = PushPc.halted b) ∧ c1 = c))
      ∧ (∃ c : PopCfg, PopCfg.exec 5 (PopCfg.entry q value) = some c
          ∧ c.pc = PopPc.halted (q.pop value).1 ∧ c.value = (q.pop value).2.1
          ∧ c.queue = (q.pop value).2.2)
      ∧ (∀ c c1 : PopCfg, c.step = some c1 →
          c.pc.rank < c1.pc.rank ∨ ((∃ b : Bool, c.pc = PopPc.halted b) ∧ c1 = c)) :=
  ⟨push_exec q v hq, push_step_forward v, pop_exec q value hq, pop_step_forward⟩

/-- C15 at the freshly constructed ring, `push(5)` and `pop` into a variable
holding `7`. -/
theorem C15_ring_single_attempt_witness :
    LockFreeQueue.new.WF
      ∧ (∃ c : PushCfg, PushCfg.exec 5 6 (PushCfg.entry LockFreeQueue.new) = some c
          ∧ c.pc = PushPc.halted (LockFreeQueue.new.push 5).1
          ∧ c.queue = (LockFreeQueue.new.push 5).2)
      ∧ (∀ c c1 : PushCfg, c.step 5 = some c1 →
          c.pc.rank < c1.pc.rank ∨ ((∃ b : Bool, c.pc = PushPc.halted b) ∧ c1 = c))
      ∧ (∃ c : PopCfg, PopCfg.exec 5 (PopCfg.entry LockFreeQueue.new 7) = some c
          ∧ c.pc = PopPc.halted (LockFreeQueue.new.pop 7).1
          ∧ c.value = (LockFreeQueue.new.pop 7).2.1
          ∧ c.queue = (LockFreeQueue.new.pop 7).2.2)
      ∧ (∀ c c1 : PopCfg, c.step = some c1 →
          c.pc.rank < c1.pc.rank ∨ ((∃ b : Bool, c.pc = PopPc.halted b) ∧ c1 = c)) :=
  ⟨⟨List.length_replicate _ _, Nat.mul_pos (by decide) (by decide),
      Nat.mul_pos (by decide) (by decide)⟩,
    C15_ring_single_attempt LockFreeQueue.new 5 7
      ⟨List.length_replicate _ _, Nat.mul_pos (by decide) (by decide),
        Nat.mul_pos (by decide) (by decide)⟩⟩

/-- C16. Index safety of the ring.  In every state reached from the constructor
the buffer has `SIZE = 1048576` slots, the slot index used by `push` (the old
`tail`) and the one used by `pop` (the old `head`) are below `SIZE`, hence
indices of the buffer, and `t + 1` and `h + 1` do not overflow `size_t`: the
wrapped successor is the exact successor. -/
theorem C16_ring_index_safety (value0 : Int) (ops : List Op) :
    SIZE = 1048576
      ∧ (ringRun value0 ops).queue.buffer.length = SIZE
      ∧ (ringRun value0 ops).queue.tail < SIZE
      ∧ (ringRun value0 ops).queue.head < SIZE
      ∧ (ringRun value0 ops).queue.tail < (ringRun value0 ops).queue.buffer.length
      ∧ (ringRun value0 ops).queue.head < (ringRun value0 ops).queue.buffer.length
      ∧ ((ringRun value0 ops).queue.tail + 1) % SIZE_T_RANGE = (ringRun value0 ops).queue.tail + 1
      ∧ ((ringRun value0 ops).queue.head + 1) % SIZE_T_RANGE
        = (ringRun value0 ops).queue.head + 1 := by
  obtain ⟨⟨hb, hh, ht⟩, _⟩ := Good_ringRun value0 ops
  generalize (ringRun value0 ops).queue = q at hb hh ht
  refine ⟨rfl, hb, ht, hh, by rw [hb]; exact ht, by rw [hb]; exact hh, ?_, ?_⟩
  · simp only [SIZE, SIZE_T_RANGE] at *; omega
  · simp only [SIZE, SIZE_T_RANGE] at *; omega

/-! ## Claims on the benchmark's producer and consumer -/

theorem spin_first (fuel : Nat) (q : LockFreeQueue) (i : Int) (h : (q.push i).1 = true) :
    producer_lockfree_spin (fuel + 1) q i = some (0, (q.push i).2) := by
  simp [producer_lockfree_spin, h]

/-- One more iteration of the producer's `for` loop from a ring that holds
`0, ..., n - 1` in its first `n` slots with `head = 0`. -/
theorem producer_iter (fuel n : Nat) (q : LockFreeQueue) (hn : n + 1 ≤ SIZE - 1)
    (hh : q.head = 0) (ht : q.tail = n) (hb : q.buffer.length = SIZE)
    (hs : ∀ i : Nat, i < n → q.buffer[i]? = some (i : Int)) :
    ∃ q1 : LockFreeQueue, producer_lockfree_spin (fuel + 1) q (n : Int) = some (0, q1)
      ∧ q1.head = 0 ∧ q1.tail = n + 1 ∧ q1.buffer.length = SIZE
      ∧ ∀ i : Nat, i < n + 1 → q1.buffer[i]? = some (i : Int) := by
  have hroom : ((q.tail + 1) % SIZE_T_RANGE) % SIZE ≠ q.head := by
    rw [next_eq, hh, ht]; simp only [SIZE] at *; omega
  have hnext : ((q.tail + 1) % SIZE_T_RANGE) % SIZE = n + 1 := by
    rw [next_eq, ht]; simp only [SIZE] at *; omega
  have hp := push_room q (n : Int) hroom
  rw [hnext, ht] at hp
  refine ⟨{ buffer := q.buffer.set n (n : Int), head := q.head, tail := n + 1 }, ?_, hh, rfl,
    ?_, ?_⟩
  · rw [spin_first fuel q _ (by rw [hp]), hp]
  · show (q.buffer.set n (n : Int)).length = SIZE
    rw [List.length_set]; exact hb
  · intro i hi
    show (q.buffer.set n (n : Int))[i]? = some (i : Int)
    by_cases hin : i = n
    · rw [hin]
      exact getElem?_set_self_of_lt _ _ _ (by rw [hb]; omega)
    · rw [getElem?_set_of_ne _ _ _ _ hin]
      exact hs i (by omega)

/-- The producer's `for` loop over `0, ..., n - 1` on a fresh ring. -/
theorem producer_range (fuel : Nat) : ∀ n : Nat, n ≤ SIZE - 1 →
    ∃ q1 : LockFreeQueue,
      (List.range n).foldlM
          (fun (acc : Nat × LockFreeQueue) (i : Nat) =>
            (producer_lockfree_spin (fuel + 1) acc.2 (i : Int)).map
              fun r => (acc.1 + r.1, r.2))
          (0, LockFreeQueue.new) = some (0, q1)
      ∧ q1.head = 0 ∧ q1.tail = n ∧ q1.buffer.length = SIZE
      ∧ ∀ i : Nat, i < n → q1.buffer[i]? = some (i : Int) := by
  intro n
  induction n with
  | zero =>
    intro _
    exact ⟨LockFreeQueue.new, rfl, rfl, rfl, List.length_replicate _ _,
      fun i hi => absurd hi (Nat.not_lt_zero i)⟩
  | succ n ih =>
    intro hn
    obtain ⟨q0, hrun, hh, ht, hb, hs⟩ := ih (by omega)
    obtain ⟨q1, hspin, hh1, ht1, hb1, hs1⟩ := producer_iter fuel n q0 hn hh ht hb hs
    refine ⟨q1, ?_, hh1, ht1, hb1, hs1⟩
    rw [List.range_succ, List.foldlM_append, hrun]
    simp [hspin]

/-- The consumer's loop on a ring holding `c, ..., n - 1` in the slots `c` to
`n - 1`, after `c` values were consumed: `k = n - c` calls of `pop`, all of them
successful, deliver `c, ..., n - 1` and empty the ring. -/
theorem consumer_drain (count : Int) (n : Nat) (hcount : count = (n : Int)) (hn : n ≤ SIZE - 1)
    (buf : List Int)
    (hs : ∀ i : Nat, i < n → buf[i]? = some (i : Int)) (extra : Nat) :
    ∀ (k c : Nat) (value : Int) (calls : List (Bool × Int)), c + k = n →
      ∃ value1 : Int,
        consumer_lockfree_loop count (k + extra) { buffer := buf, head := c, tail := n }
            value (c : Int) calls
          = some (calls ++ (List.range' c k).map (fun i : Nat => (true, (i : Int))), value1,
              { buffer := buf, head := n, tail := n }) := by
  intro k
  induction k with
  | zero =>
    intro c value calls hc
    have hcn : c = n := by omega
    have hnot : ¬ ((c : Int) < count) := by rw [hcount, hcn]; exact lt_irrefl _
    refine ⟨value, ?_⟩
    rw [hcn] at hnot ⊢
    cases extra with
    | zero => simp [consumer_lockfree_loop, hnot]
    | succ e => simp [consumer_lockfree_loop, hnot]
  | succ k ih =>
    intro c value calls hc
    have hlt : (c : Int) < count := by rw [hcount]; exact_mod_cast (by omega : c < n)
    have hne : (LockFreeQueue.mk buf c n).head ≠ (LockFreeQueue.mk buf c n).tail := by
      show c ≠ n; omega
    have hslot : buf.getD c 0 = (c : Int) := by
      rw [List.getD_eq_getElem?_getD, hs c (by omega)]; rfl
    have hhead : ((c + 1) % SIZE_T_RANGE) % SIZE = c + 1 := by
      rw [next_eq]; simp only [SIZE] at *; omega
    have hp : (LockFreeQueue.mk buf c n).pop value
        = (true, (c : Int), { buffer := buf, head := c + 1, tail := n }) := by
      rw [pop_nonempty _ value hne]
      show (true, buf.getD c 0, LockFreeQueue.mk buf (((c + 1) % SIZE_T_RANGE) % SIZE) n) = _
      rw [hslot, hhead]
    obtain ⟨value1, hrec⟩ := ih (c + 1) (c : Int) (calls ++ [(true, (c : Int))]) (by omega)
    refine ⟨value1, ?_⟩
    have hfuel : k + 1 + extra = (k + extra) + 1 := by omega
    rw [hfuel]
    unfold consumer_lockfree_loop
    rw [if_pos hlt, hp]
    simp only [if_true]
    have hcast : ((c : Int) + 1) = ((c + 1 : Nat) : Int) := by push_cast; rfl
    rw [hcast, hrec, List.range'_succ, List.map_cons, List.append_assoc]
    rfl

theorem count_bounds (count : Int) (h0 : 0 ≤ count) (h1 : count ≤ (SIZE : Int) - 1) :
    count.toNat ≤ SIZE - 1 ∧ count = (count.toNat : Int) := by
  simp only [SIZE] at *
  omega

/-- C17. The benchmark producer never sees a full ring.  For every `count` with
`0 ≤ count ≤ SIZE - 1 = 1048575` (so for `N = 1000000` of `main`),
`producer_lockfree(q, count)` run alone on a freshly constructed `LockFreeQueue`
terminates, one call of `push` per spin loop being enough: no spin loop body is
ever entered, every `push` returns `true` at its first call.  It leaves
`head = 0`, `tail = count` and `buffer[i] = i` for every `i < count`. -/
theorem C17_producer_never_full (fuel : Nat) (count : Int) (h0 : 0 ≤ count)
    (h1 : count ≤ (SIZE : Int) - 1) :
    SIZE - 1 = 1048575
      ∧ ∃ q1 : LockFreeQueue,
          producer_lockfree (fuel + 1) LockFreeQueue.new count = some (0, q1)
            ∧ q1.head = 0 ∧ (q1.tail : Int) = count
            ∧ ∀ i : Nat, (i : Int) < count → q1.buffer[i]? = some (i : Int) := by
  obtain ⟨hn, hc⟩ := count_bounds count h0 h1
  obtain ⟨q1, hrun, hh, ht, _, hs⟩ := producer_range fuel count.toNat hn
  refine ⟨rfl, q1, hrun, hh, ?_, ?_⟩
  · rw [ht]; exact hc.symm
  · intro i hi
    exact hs i (by omega)

/-- C17 at `count = 1000000`, the `N` of `main`. -/
theorem C17_producer_never_full_witness :
    (0 : Int) ≤ 1000000 ∧ (1000000 : Int) ≤ (SIZE : Int) - 1
      ∧ SIZE - 1 = 1048575
      ∧ ∃ q1 : LockFreeQueue,
          producer_lockfree (0 + 1) LockFreeQueue.new 1000000 = some (0, q1)
            ∧ q1.head = 0 ∧ (q1.tail : Int) = 1000000
            ∧ ∀ i : Nat, (i : Int) < 1000000 → q1.buffer[i]? = some (i : Int) :=
  ⟨by decide, by decide, C17_producer_never_full 0 1000000 (by decide) (by decide)⟩

/-- C18. Sequential drain by the benchmark consumer.  For every `count` with
`0 ≤ count ≤ SIZE - 1`, after `producer_lockfree(q, count)` has run to
completion on a freshly constructed `LockFreeQueue`, `consumer_lockfree(q,
count)` terminates (`count` calls of `pop` are enough fuel, more changes
nothing) after exactly `count` calls of `pop`, every one returning `true`, the
`i`-th delivering the value `i`; the ring ends empty, `head = tail = count`. -/
theorem C18_consumer_drains (fuel extra : Nat) (count value0 : Int) (h0 : 0 ≤ count)
    (h1 : count ≤ (SIZE : Int) - 1) :
    ∃ (q1 : LockFreeQueue) (value1 : Int) (q2 : LockFreeQueue),
      producer_lockfree (fuel + 1) LockFreeQueue.new count = some (0, q1)
        ∧ consumer_lockfree (count.toNat + extra) q1 count value0
          = some ((List.range count.toNat).map (fun i : Nat => (true, (i : Int))), value1, q2)
        ∧ ((List.range count.toNat).map (fun i : Nat => (true, (i : Int)))).length = count.toNat
        ∧ (count.toNat : Int) = count
        ∧ q2.head = q2.tail ∧ (q2.head : Int) = count ∧ (q2.tail : Int) = count := by
  obtain ⟨hn, hc⟩ := count_bounds count h0 h1
  obtain ⟨⟨buf, hd, tl⟩, hrun, hh, ht, _, hs⟩ := producer_range fuel count.toNat hn
  simp only at hh ht hs
  subst hh
  subst ht
  obtain ⟨value1, hdrain⟩ := consumer_drain count count.toNat hc hn buf hs extra
    count.toNat 0 value0 [] (by omega)
  refine ⟨_, value1, { buffer := buf, head := count.toNat, tail := count.toNat }, hrun, ?_,
    by simp, hc.symm, rfl, hc.symm, hc.symm⟩
  rw [List.range_eq_range']
  exact hdrain

/-- C18 at `count = 1000000`, the `N` of `main`, with exactly `count` calls of
`pop` allowed. -/
theorem C18_consumer_drains_witness :
    (0 : Int) ≤ 1000000 ∧ (1000000 : Int) ≤ (SIZE : Int) - 1
      ∧ ∃ (q1 : LockFreeQueue) (value1 : Int) (q2 : LockFreeQueue),
          producer_lockfree (0 + 1) LockFreeQueue.new 1000000 = some (0, q1)
            ∧ consumer_lockfree ((1000000 : Int).toNat + 0) q1 1000000 7
              = some ((List.range (1000000 : Int).toNat).map (fun i : Nat => (true, (i : Int))),
                  value1, q2)
            ∧ ((List.range (1000000 : Int).toNat).map
                (fun i : Nat => (true, (i : Int)))).length = (1000000 : Int).toNat
            ∧ ((1000000 : Int).toNat : Int) = 1000000
            ∧ q2.head = q2.tail ∧ (q2.head : Int) = 1000000 ∧ (q2.tail : Int) = 1000000 :=
  ⟨by decide, by decide, C18_consumer_drains 0 0 1000000 7 (by decide) (by decide)⟩

end LowLatencyQueue
